import Mathlib

/-!
Shallow embedding of the job-queue core of `src/frontend/src/main.ts`
(browser batch background-removal tool) and proofs about it.

Modelling conventions:
* The DOM, rendering (`renderJobs`, `updateSummary`), and `announce` calls
  have no effect on the job store and are not modelled; the numbers they
  display (`added`, `rejected`, ready count) are returned as values.
* `crypto.randomUUID()` is modelled by a fresh-counter `nextId` (uniqueness
  of the generated ids is the only property the code relies on).
* `URL.createObjectURL` is modelled by a fresh-counter `nextUrl` producing
  strings that start with "blob:", matching the browser API.
* The event loop is modelled as a small-step relation `Step`: the
  synchronous prefix of `runJob` (up to the `await`) runs atomically inside
  `startNextJobs`/`addFiles`/`retryJob`, and the continuation after the
  `await` is the separate `runJobSettle` step, gated on the job id being in
  `inflight` (the set of outstanding `runJob` promises).
* Machine integers: all sizes/counters are JS doubles holding small
  nonnegative integers; they are modelled as `Nat`.  The one subtraction,
  `Math.max(0, activeWorkers - 1)`, is written with an explicit `max`.
-/

/-- Character-list version of a string prefix test (first argument is the
whole string, second the candidate prefix). -/
def listStartsWith : List Char → List Char → Bool
  | _, [] => true
  | [], _ :: _ => false
  | c :: cs, d :: ds => if c = d then listStartsWith cs ds else false

/-- JS `String.prototype.startsWith`, used by the source at
`file.type.startsWith('image/')` and `resultUrl.startsWith('blob:')`. -/
def strStartsWith (s pre : String) : Bool := listStartsWith s.toList pre.toList

/-- Job lifecycle states, `type JobStatus` in the source. -/
inductive JobStatus
  | pending
  | processing
  | ready
  | error
deriving Repr, DecidableEq

/-- The fields of a browser `File` that the code reads: `name`, `size`,
`type` (the mime type). -/
structure JsFile where
  name : String
  size : Nat
  type : String
deriving Repr, DecidableEq

/-- Result bytes returned by the removal capability; opaque to this core. -/
abbrev Blob := Nat

/-- `interface RemovalJob` from the source. -/
structure RemovalJob where
  id : Nat
  file : JsFile
  status : JobStatus
  previewUrl : String
  resultUrl : Option String := none
  resultBlob : Option Blob := none
  error : Option String := none
deriving Repr, DecidableEq

def MAX_FILE_SIZE_MB : Nat := 12

def MAX_FILE_SIZE_BYTES : Nat := MAX_FILE_SIZE_MB * 1024 * 1024

def MAX_PARALLEL_JOBS : Nat := 2

/-- Whole-app state: the `jobs` map (a `Map` iterates in insertion order,
so it is modelled as a list ordered by insertion), the `activeWorkers`
counter, the ids of jobs with an outstanding `runJob` promise (`inflight`,
implicit event-loop state in the source), and the two freshness counters. -/
structure AppState where
  jobs : List RemovalJob
  activeWorkers : Nat
  inflight : List Nat
  nextId : Nat
  nextUrl : Nat
deriving Repr, DecidableEq

def initState : AppState :=
  { jobs := [], activeWorkers := 0, inflight := [], nextId := 0, nextUrl := 0 }

/-- `URL.createObjectURL`: returns a fresh string starting with "blob:". -/
def createObjectURL (n : Nat) : String := "blob:" ++ toString n

/-- `createJob` (main.ts 185-190): fresh id, pending status, preview URL. -/
def createJob (id : Nat) (urlTok : Nat) (file : JsFile) : RemovalJob :=
  { id := id
    file := file
    status := JobStatus.pending
    previewUrl := createObjectURL urlTok }

/-- In-place mutation of the job object with the given id, as seen through
the store (JS objects are references; mutating `job` mutates the map entry). -/
def setJob (jobs : List RemovalJob) (id : Nat) (f : RemovalJob → RemovalJob) :
    List RemovalJob :=
  jobs.map (fun j => if j.id = id then f j else j)

/-- `Array.from(jobs.values()).find((item) => item.status === 'pending')`. -/
def findPending (jobs : List RemovalJob) : Option RemovalJob :=
  jobs.find? (fun j => decide (j.status = JobStatus.pending))

def pendingCount (jobs : List RemovalJob) : Nat :=
  jobs.countP (fun j => decide (j.status = JobStatus.pending))

def processingCount (jobs : List RemovalJob) : Nat :=
  jobs.countP (fun j => decide (j.status = JobStatus.processing))

/-- The synchronous prefix of `runJob` (main.ts 314-319): increment
`activeWorkers`, set the job to `processing`, clear its error; the promise
for the job becomes outstanding.  Execution then suspends at the `await`. -/
def runJobStart (s : AppState) (id : Nat) : AppState :=
  { s with
    activeWorkers := s.activeWorkers + 1
    jobs := setJob s.jobs id
      (fun j => { j with status := JobStatus.processing, error := none })
    inflight := s.inflight ++ [id] }

/-- Body of the `while` loop of `startNextJobs` (main.ts 306-312), with
fuel; each iteration that admits a job turns a pending job into a
processing one, so `s.jobs.length` fuel always suffices. -/
def startLoop : Nat → AppState → AppState
  | 0, s => s
  | fuel + 1, s =>
    if s.activeWorkers < MAX_PARALLEL_JOBS then
      match findPending s.jobs with
      | some j => startLoop fuel (runJobStart s j.id)
      | none => s
    else s

/-- `startNextJobs` (main.ts 306-312). -/
def startNextJobs (s : AppState) : AppState := startLoop s.jobs.length s

/-- The `forEach` body of `addFiles` (main.ts 195-206): non-image files are
skipped (without touching `rejected`), oversized image files bump
`rejected`, valid files become fresh pending jobs appended to the store. -/
def addFilesLoop :
    List JsFile → AppState → Nat → Nat → AppState × Nat × Nat
  | [], s, added, rejected => (s, added, rejected)
  | f :: fs, s, added, rejected =>
    if ¬ strStartsWith f.type "image/" then
      addFilesLoop fs s added rejected
    else if f.size > MAX_FILE_SIZE_BYTES then
      addFilesLoop fs s added (rejected + 1)
    else
      let job := createJob s.nextId s.nextUrl f
      addFilesLoop fs
        { s with
          jobs := s.jobs ++ [job]
          nextId := s.nextId + 1
          nextUrl := s.nextUrl + 1 }
        (added + 1) rejected

/-- `addFiles` (main.ts 192-217): returns the new state together with the
`added` and `rejected` counters (the latter is the aggregate count the UI
announces when positive).  The scheduler runs only when something was
added, exactly as in the source. -/
def addFiles (files : List JsFile) (s : AppState) : AppState × Nat × Nat :=
  match addFilesLoop files s 0 0 with
  | (s1, added, rejected) =>
    (if added > 0 then startNextJobs s1 else s1, added, rejected)

/-- Outcome of one `runJob` promise: the removal capability resolved with a
blob or rejected; on rejection the recorded message is the error's
human-readable message. -/
inductive RemovalOutcome
  | success (blob : Blob)
  | failure (msg : String)
deriving Repr, DecidableEq

/-- The continuation of `runJob` after the `await` (main.ts 320-338):
try/catch records the outcome on the job, the `finally` block decrements
`activeWorkers` via `Math.max(0, activeWorkers - 1)` and re-runs the
scheduler.  The settled promise leaves `inflight`. -/
def runJobSettle (s : AppState) (id : Nat) (out : RemovalOutcome) : AppState :=
  let s1 :=
    match out with
    | RemovalOutcome.success blob =>
      { s with
        jobs := setJob s.jobs id
          (fun j =>
            { j with
              resultBlob := some blob
              resultUrl := some (createObjectURL s.nextUrl)
              status := JobStatus.ready })
        nextUrl := s.nextUrl + 1 }
    | RemovalOutcome.failure msg =>
      { s with
        jobs := setJob s.jobs id
          (fun j => { j with status := JobStatus.error, error := some msg }) }
  let s2 :=
    { s1 with
      activeWorkers := max 0 (s1.activeWorkers - 1)
      inflight := s1.inflight.erase id }
  startNextJobs s2

/-- `cleanupJobUrls` (main.ts 126-132): revokes the preview URL, revokes
the result URL when it is a blob: URL, and drops the result bytes.  The
returned list is the URLs passed to `URL.revokeObjectURL`. -/
def cleanupJobUrls (j : RemovalJob) : RemovalJob × List String :=
  let revoked :=
    [j.previewUrl] ++
      (match j.resultUrl with
       | some u => if strStartsWith u "blob:" then [u] else []
       | none => [])
  ({ j with resultBlob := none }, revoked)

/-- Which exit of the remove branch of the job-list click handler
(main.ts 264-276) was taken: the `if (!job) return` guard, the
`if (job.status === 'processing') return` guard, or the removal itself. -/
inductive RemoveResult
  | notFound
  | invalidState
  | removed
deriving Repr, DecidableEq

/-- The remove branch of the click handler (main.ts 264-276): look the job
up, refuse while `processing`, otherwise release its resources and delete
it from the map.  Also returns the branch taken and the revoked URLs. -/
def removeJob (s : AppState) (id : Nat) :
    AppState × RemoveResult × List String :=
  match s.jobs.find? (fun j => decide (j.id = id)) with
  | none => (s, RemoveResult.notFound, [])
  | some j =>
    if j.status = JobStatus.processing then
      (s, RemoveResult.invalidState, [])
    else
      ({ s with jobs := s.jobs.filter (fun k => decide (¬ k.id = id)) },
        RemoveResult.removed, (cleanupJobUrls j).2)

/-- The mutation performed by the retry branch (main.ts 291-292), before
the scheduler is re-run: status back to pending, error cleared.  This is
the state the UI renders (main.ts 293-294) before `startNextJobs`. -/
def retrySet (s : AppState) (id : Nat) : AppState :=
  { s with
    jobs := setJob s.jobs id
      (fun j => { j with status := JobStatus.pending, error := none }) }

/-- The retry branch of the click handler (main.ts 289-296): a no-op
unless the job exists and has status `error`; otherwise reset to pending
and re-run the scheduler. -/
def retryJob (s : AppState) (id : Nat) : AppState :=
  match s.jobs.find? (fun j => decide (j.id = id)) with
  | none => s
  | some j =>
    if j.status = JobStatus.error then startNextJobs (retrySet s id) else s

/-- The regex replace `name.replace(/\.[^.]+$/, '')`: strip a final dot
followed by one or more non-dot characters. -/
def stripLastExtension (name : String) : String :=
  let rev := name.toList.reverse
  let ext := rev.takeWhile (fun c => decide (¬ c = '.'))
  match rev.drop ext.length with
  | '.' :: base => if ext.isEmpty then name else String.mk base.reverse
  | _ => name

/-- `baseName` computation (main.ts 371): stripped name, or the fallback
when the result is the empty string (falsy in JS). -/
def baseNameOf (name : String) : String :=
  let stripped := stripLastExtension name
  if stripped = "" then "eltavolitott-hatter" else stripped

/-- The archive entry name derived for a job (main.ts 371-372). -/
def entryName (j : RemovalJob) : String :=
  baseNameOf j.file.name ++ "-bg-removed.png"

/-- `zip.file(name, blob)` (JSZip): adding an entry under an existing name
replaces that entry, otherwise the entry is appended. -/
def zipFile (entries : List (String × Blob)) (name : String) (blob : Blob) :
    List (String × Blob) :=
  if entries.any (fun e => decide (e.1 = name)) then
    entries.map (fun e => if e.1 = name then (name, blob) else e)
  else entries ++ [(name, blob)]

/-- The snapshot taken at main.ts 358: ready jobs that still hold their
result blob or a result URL. -/
def includedReadyJobs (s : AppState) : List RemovalJob :=
  s.jobs.filter
    (fun j =>
      decide (j.status = JobStatus.ready) &&
        (j.resultBlob.isSome || j.resultUrl.isSome))

/-- The `for (const job of readyJobs)` loop (main.ts 363-373).  `fetch`
models the browser fetch of a result URL: `some b` when the fetch resolves
with bytes `b`, `none` when it rejects (which the surrounding `catch`
turns into a failed export).  A successful fetch re-materializes the blob
on the live job object.  Returns the final state and `some entries`, or
`none` when a fetch rejected. -/
def exportLoop (fetch : String → Option Blob) :
    List RemovalJob → AppState → List (String × Blob) →
      AppState × Option (List (String × Blob))
  | [], s, zip => (s, some zip)
  | j :: rest, s, zip =>
    match j.resultBlob with
    | some b => exportLoop fetch rest s (zipFile zip (entryName j) b)
    | none =>
      match j.resultUrl with
      | some url =>
        match fetch url with
        | some b =>
          exportLoop fetch rest
            { s with
              jobs := setJob s.jobs j.id
                (fun k => { k with resultBlob := some b }) }
            (zipFile zip (entryName j) b)
        | none => (s, none)
      | none => exportLoop fetch rest s zip

/-- The `readyJobCount` module variable; `updateSummary` (main.ts 134-141)
recomputes it after every mutation, so it always equals the count of ready
jobs in the store. -/
def readyJobCount (s : AppState) : Nat :=
  (s.jobs.filter (fun j => decide (j.status = JobStatus.ready))).length

/-- How `downloadAllReadyJobs` ended: via one of the two early returns
with nothing to archive (main.ts 353, 359-361), with a generated archive
handed to the browser for download, or via the `catch` branch
(main.ts 384-386). -/
inductive ExportOutcome
  | nothingToExport
  | downloaded (entries : List (String × Blob))
  | failed
deriving Repr, DecidableEq

/-- `downloadAllReadyJobs` (main.ts 352-392).  `zipOk` models whether
`zip.generateAsync` resolves; button/DOM bookkeeping is not modelled.  The
same guard `readyJobCount === 0` also protects the click handler
(main.ts 299-302). -/
def downloadAllReadyJobs (fetch : String → Option Blob) (zipOk : Bool)
    (s : AppState) : AppState × ExportOutcome :=
  if readyJobCount s = 0 then (s, ExportOutcome.nothingToExport)
  else
    let ready := includedReadyJobs s
    if ready.isEmpty then (s, ExportOutcome.nothingToExport)
    else
      match exportLoop fetch ready s [] with
      | (s1, none) => (s1, ExportOutcome.failed)
      | (s1, some entries) =>
        if zipOk then (s1, ExportOutcome.downloaded entries)
        else (s1, ExportOutcome.failed)

/-- Modelled from the spec: the spec's aggregate rejection count — "count
of rejected files", where a file is rejected when "oversized or non-image"
("`ValidationError` (oversized or non-image input — rejected at admission,
never becomes a job)").  Stated here only to compare with the `rejected`
counter the code actually reports. -/
def specRejectedCount (files : List JsFile) : Nat :=
  files.countP
    (fun f =>
      !strStartsWith f.type "image/" || decide (f.size > MAX_FILE_SIZE_BYTES))

/-- One observable event-loop step: a batch of files is added, a remove or
retry click is handled, or one outstanding removal promise settles. -/
inductive Step : AppState → AppState → Prop
  | add (files : List JsFile) (s : AppState) : Step s (addFiles files s).1
  | remove (id : Nat) (s : AppState) : Step s (removeJob s id).1
  | retry (id : Nat) (s : AppState) : Step s (retryJob s id)
  | settle (id : Nat) (out : RemovalOutcome) (s : AppState)
      (h : id ∈ s.inflight) : Step s (runJobSettle s id out)

/-- States reachable from the initial (empty) app state. -/
inductive Reachable : AppState → Prop
  | init : Reachable initState
  | step {s s' : AppState} : Reachable s → Step s s' → Reachable s'

/-! ### Helper lemmas about `setJob` and the counters -/

theorem mem_setJob {jobs : List RemovalJob} {id : Nat} {f : RemovalJob → RemovalJob}
    {x : RemovalJob} (hx : x ∈ setJob jobs id f) :
    ∃ y ∈ jobs, x = if y.id = id then f y else y := by
  rcases List.mem_map.mp hx with ⟨y, hy, hxy⟩
  exact ⟨y, hy, hxy.symm⟩

theorem mem_setJob_of_ne {jobs : List RemovalJob} {id : Nat}
    {f : RemovalJob → RemovalJob} {x : RemovalJob} (hx : x ∈ jobs)
    (hne : ¬ x.id = id) : x ∈ setJob jobs id f := by
  have h := List.mem_map_of_mem (fun j => if j.id = id then f j else j) hx
  simpa [setJob, hne] using h

theorem mem_setJob_self {jobs : List RemovalJob} {id : Nat}
    {f : RemovalJob → RemovalJob} {x : RemovalJob} (hx : x ∈ jobs)
    (hid : x.id = id) : f x ∈ setJob jobs id f := by
  have h := List.mem_map_of_mem (fun j => if j.id = id then f j else j) hx
  simpa [setJob, hid] using h

theorem setJob_eq_self {jobs : List RemovalJob} {id : Nat}
    {f : RemovalJob → RemovalJob} (h : ∀ j ∈ jobs, ¬ j.id = id) :
    setJob jobs id f = jobs := by
  induction jobs with
  | nil => rfl
  | cons a l ih =>
    have ha := h a (by simp)
    simp only [setJob, List.map_cons, if_neg ha]
    have := ih (fun j hj => h j (List.mem_cons_of_mem a hj))
    simpa [setJob] using this

theorem setJob_map_comp {jobs : List RemovalJob} {id : Nat}
    {f : RemovalJob → RemovalJob} {α : Type} (g : RemovalJob → α)
    (hf : ∀ j, g (f j) = g j) :
    (setJob jobs id f).map g = jobs.map g := by
  induction jobs with
  | nil => rfl
  | cons a l ih =>
    simp only [setJob, List.map_cons] at ih ⊢
    by_cases ha : a.id = id
    · simp [ha, hf, ih]
    · simp [ha, ih]

theorem length_setJob {jobs : List RemovalJob} {id : Nat}
    {f : RemovalJob → RemovalJob} : (setJob jobs id f).length = jobs.length :=
  List.length_map jobs _

theorem eq_of_mem_id {jobs : List RemovalJob} {a b : RemovalJob}
    (hnd : (jobs.map RemovalJob.id).Nodup) (ha : a ∈ jobs) (hb : b ∈ jobs)
    (hid : a.id = b.id) : a = b := by
  induction jobs with
  | nil => cases ha
  | cons x l ih =>
    rw [List.map_cons, List.nodup_cons] at hnd
    rcases List.mem_cons.mp ha with rfl | ha'
    · rcases List.mem_cons.mp hb with rfl | hb'
      · rfl
      · exact absurd (hid ▸ List.mem_map_of_mem RemovalJob.id hb') hnd.1
    · rcases List.mem_cons.mp hb with rfl | hb'
      · exact absurd (hid ▸ List.mem_map_of_mem RemovalJob.id ha') hnd.1
      · exact ih hnd.2 ha' hb'

theorem countP_setJob {jobs : List RemovalJob} {j0 : RemovalJob}
    {f : RemovalJob → RemovalJob} (p : RemovalJob → Bool)
    (hnd : (jobs.map RemovalJob.id).Nodup) (hmem : j0 ∈ jobs) :
    (setJob jobs j0.id f).countP p + (if p j0 then 1 else 0) =
      jobs.countP p + (if p (f j0) then 1 else 0) := by
  induction jobs with
  | nil => cases hmem
  | cons a l ih =>
    rw [List.map_cons, List.nodup_cons] at hnd
    by_cases ha : a.id = j0.id
    · have haj : a = j0 := by
        rcases List.mem_cons.mp hmem with rfl | h'
        · rfl
        · exact absurd (ha ▸ List.mem_map_of_mem RemovalJob.id h') hnd.1
      subst haj
      have hl : setJob l a.id f = l := by
        refine setJob_eq_self (fun j hj hje => hnd.1 ?_)
        exact hje ▸ List.mem_map_of_mem RemovalJob.id hj
      have hcons : setJob (a :: l) a.id f = f a :: l := by
        show (if a.id = a.id then f a else a) :: setJob l a.id f = f a :: l
        rw [if_pos rfl, hl]
      rw [hcons, List.countP_cons, List.countP_cons]
      omega
    · have hj0 : j0 ∈ l := by
        rcases List.mem_cons.mp hmem with rfl | h'
        · exact absurd rfl ha
        · exact h'
      have hind := ih hnd.2 hj0
      have hcons : setJob (a :: l) j0.id f = a :: setJob l j0.id f := by
        show (if a.id = j0.id then f a else a) :: setJob l j0.id f = _
        rw [if_neg ha]
      rw [hcons, List.countP_cons, List.countP_cons]
      omega

theorem findPending_mem {jobs : List RemovalJob} {j : RemovalJob}
    (h : findPending jobs = some j) :
    j ∈ jobs ∧ j.status = JobStatus.pending := by
  refine ⟨List.mem_of_find?_eq_some h, ?_⟩
  have := List.find?_some h
  simpa using this

theorem findPending_none {jobs : List RemovalJob} :
    findPending jobs = none ↔ ∀ j ∈ jobs, ¬ j.status = JobStatus.pending := by
  constructor
  · intro h j hj
    have := List.find?_eq_none.mp h j hj
    simpa using this
  · intro h
    exact List.find?_eq_none.mpr (fun j hj => by simpa using h j hj)

theorem pendingCount_eq_zero {jobs : List RemovalJob} :
    pendingCount jobs = 0 ↔ findPending jobs = none := by
  rw [pendingCount, List.countP_eq_zero, findPending_none]
  constructor
  · intro h j hj
    have := h j hj
    simpa using this
  · intro h j hj
    simpa using h j hj

theorem findPending_split {jobs : List RemovalJob} {j : RemovalJob}
    (h : findPending jobs = some j) :
    ∃ pre post, jobs = pre ++ j :: post ∧
      ∀ k ∈ pre, ¬ k.status = JobStatus.pending := by
  induction jobs with
  | nil => simp [findPending] at h
  | cons a l ih =>
    by_cases ha : a.status = JobStatus.pending
    · have : findPending (a :: l) = some a := by
        simp [findPending, List.find?_cons_of_pos, ha]
      rw [this] at h
      obtain rfl := Option.some.inj h
      exact ⟨[], l, rfl, by simp⟩
    · have hfind : findPending (a :: l) = findPending l := by
        simp [findPending, List.find?_cons_of_neg, ha]
      rcases ih (hfind ▸ h) with ⟨pre, post, hsplit, hpre⟩
      refine ⟨a :: pre, post, by simp [hsplit], ?_⟩
      intro k hk
      rcases List.mem_cons.mp hk with rfl | hk'
      · exact ha
      · exact hpre k hk'

theorem startLoop_succ (n : Nat) (s : AppState) :
    startLoop (n + 1) s =
      if s.activeWorkers < MAX_PARALLEL_JOBS then
        match findPending s.jobs with
        | some j => startLoop n (runJobStart s j.id)
        | none => s
      else s := rfl

theorem processingCount_setJob_start {jobs : List RemovalJob} {j : RemovalJob}
    (hnd : (jobs.map RemovalJob.id).Nodup) (hmem : j ∈ jobs)
    (hj : j.status = JobStatus.pending) :
    processingCount (setJob jobs j.id
        (fun k => { k with status := JobStatus.processing, error := none })) =
      processingCount jobs + 1 := by
  have h := countP_setJob
    (f := fun k => { k with status := JobStatus.processing, error := none })
    (fun k => decide (k.status = JobStatus.processing)) hnd hmem
  have e1 : (if (fun k => decide (k.status = JobStatus.processing)) j = true
      then 1 else 0) = 0 := by simp [hj]
  have e2 : (if (fun k => decide (k.status = JobStatus.processing))
      ((fun k => { k with status := JobStatus.processing, error := none }) j) =
        true then 1 else 0) = 1 := by simp
  rw [e1, e2] at h
  unfold processingCount
  omega

theorem processingCount_setJob_stop {jobs : List RemovalJob} {j : RemovalJob}
    {f : RemovalJob → RemovalJob} (hnd : (jobs.map RemovalJob.id).Nodup)
    (hmem : j ∈ jobs) (hj : j.status = JobStatus.processing)
    (hf : ¬ (f j).status = JobStatus.processing) :
    processingCount (setJob jobs j.id f) + 1 = processingCount jobs := by
  have h := countP_setJob (f := f)
    (fun k => decide (k.status = JobStatus.processing)) hnd hmem
  have e1 : (if (fun k => decide (k.status = JobStatus.processing)) j = true
      then 1 else 0) = 1 := by simp [hj]
  have e2 : (if (fun k => decide (k.status = JobStatus.processing)) (f j) =
      true then 1 else 0) = 0 := by simp [hf]
  rw [e1, e2] at h
  unfold processingCount
  omega

theorem processingCount_setJob_keep {jobs : List RemovalJob} {j : RemovalJob}
    {f : RemovalJob → RemovalJob} (hnd : (jobs.map RemovalJob.id).Nodup)
    (hmem : j ∈ jobs) (hj : ¬ j.status = JobStatus.processing)
    (hf : ¬ (f j).status = JobStatus.processing) :
    processingCount (setJob jobs j.id f) = processingCount jobs := by
  have h := countP_setJob (f := f)
    (fun k => decide (k.status = JobStatus.processing)) hnd hmem
  have e1 : (if (fun k => decide (k.status = JobStatus.processing)) j = true
      then 1 else 0) = 0 := by simp [hj]
  have e2 : (if (fun k => decide (k.status = JobStatus.processing)) (f j) =
      true then 1 else 0) = 0 := by simp [hf]
  rw [e1, e2] at h
  unfold processingCount
  omega

theorem pendingCount_setJob_start {jobs : List RemovalJob} {j : RemovalJob}
    (hnd : (jobs.map RemovalJob.id).Nodup) (hmem : j ∈ jobs)
    (hj : j.status = JobStatus.pending) :
    pendingCount (setJob jobs j.id
        (fun k => { k with status := JobStatus.processing, error := none })) +
      1 = pendingCount jobs := by
  have h := countP_setJob
    (f := fun k => { k with status := JobStatus.processing, error := none })
    (fun k => decide (k.status = JobStatus.pending)) hnd hmem
  have e1 : (if (fun k => decide (k.status = JobStatus.pending)) j = true
      then 1 else 0) = 1 := by simp [hj]
  have e2 : (if (fun k => decide (k.status = JobStatus.pending))
      ((fun k => { k with status := JobStatus.processing, error := none }) j) =
        true then 1 else 0) = 0 := by simp
  rw [e1, e2] at h
  unfold pendingCount
  omega

/-! ### Per-job evolution through the scheduler -/

/-- What one pass of the scheduler may do to an individual job: leave it
alone, or admit it (only from `pending`, moving it to `processing` with a
cleared error and all other fields untouched). -/
def microOK (j j' : RemovalJob) : Prop :=
  j' = j ∨
    (j.status = JobStatus.pending ∧
      j' = { j with status := JobStatus.processing, error := none })

theorem microOK_trans {j j1 j2 : RemovalJob} (h1 : microOK j j1)
    (h2 : microOK j1 j2) : microOK j j2 := by
  rcases h2 with rfl | ⟨hp, rfl⟩
  · exact h1
  · rcases h1 with rfl | ⟨hp', rfl⟩
    · exact Or.inr ⟨hp, rfl⟩
    · simp at hp

theorem runJobStart_jobs_back {s : AppState} {j : RemovalJob}
    (hnd : (s.jobs.map RemovalJob.id).Nodup)
    (hfind : findPending s.jobs = some j) :
    ∀ x ∈ (runJobStart s j.id).jobs,
      ∃ y ∈ s.jobs, y.id = x.id ∧ microOK y x := by
  intro x hx
  obtain ⟨hjmem, hjpend⟩ := findPending_mem hfind
  rcases mem_setJob hx with ⟨y, hy, hxy⟩
  by_cases hid : y.id = j.id
  · have hyj : y = j := eq_of_mem_id hnd hy hjmem hid
    subst hyj
    rw [if_pos hid] at hxy
    exact ⟨y, hy, by simp [hxy], Or.inr ⟨hjpend, hxy⟩⟩
  · rw [if_neg hid] at hxy
    exact ⟨y, hy, by simp [hxy], Or.inl hxy⟩

theorem runJobStart_map_id {s : AppState} {id : Nat} :
    (runJobStart s id).jobs.map RemovalJob.id = s.jobs.map RemovalJob.id :=
  setJob_map_comp RemovalJob.id (fun _ => rfl)

theorem startLoop_jobs_back {fuel : Nat} :
    ∀ {s : AppState}, (s.jobs.map RemovalJob.id).Nodup →
      ∀ x ∈ (startLoop fuel s).jobs,
        ∃ y ∈ s.jobs, y.id = x.id ∧ microOK y x := by
  induction fuel with
  | zero => intro s _ x hx; exact ⟨x, hx, rfl, Or.inl rfl⟩
  | succ n ih =>
    intro s hnd x hx
    rw [startLoop_succ] at hx
    by_cases hlt : s.activeWorkers < MAX_PARALLEL_JOBS
    · rw [if_pos hlt] at hx
      cases hfind : findPending s.jobs with
      | none => rw [hfind] at hx; exact ⟨x, hx, rfl, Or.inl rfl⟩
      | some j =>
        rw [hfind] at hx
        have hnd' : ((runJobStart s j.id).jobs.map RemovalJob.id).Nodup := by
          rw [runJobStart_map_id]; exact hnd
        rcases ih hnd' x hx with ⟨y1, hy1, hid1, hm1⟩
        rcases runJobStart_jobs_back hnd hfind y1 hy1 with ⟨y, hy, hid, hm⟩
        exact ⟨y, hy, hid.trans hid1, microOK_trans hm hm1⟩
    · rw [if_neg hlt] at hx
      exact ⟨x, hx, rfl, Or.inl rfl⟩

theorem startLoop_idfile {fuel : Nat} :
    ∀ s : AppState,
      (startLoop fuel s).jobs.map (fun j => (j.id, j.file)) =
        s.jobs.map (fun j => (j.id, j.file)) := by
  induction fuel with
  | zero => intro s; rfl
  | succ n ih =>
    intro s
    rw [startLoop_succ]
    by_cases hlt : s.activeWorkers < MAX_PARALLEL_JOBS
    · rw [if_pos hlt]
      cases hfind : findPending s.jobs with
      | none => rfl
      | some j =>
        rw [ih]
        exact setJob_map_comp (fun j => (j.id, j.file)) (fun _ => rfl)
    · rw [if_neg hlt]

theorem startLoop_nextId {fuel : Nat} :
    ∀ s : AppState, (startLoop fuel s).nextId = s.nextId := by
  induction fuel with
  | zero => intro s; rfl
  | succ n ih =>
    intro s
    rw [startLoop_succ]
    by_cases hlt : s.activeWorkers < MAX_PARALLEL_JOBS
    · rw [if_pos hlt]
      cases hfind : findPending s.jobs with
      | none => rfl
      | some j => exact ih _
    · rw [if_neg hlt]

/-! ### The reachable-state invariant -/

/-- Invariant maintained at every suspension point of the event loop:
ids are fresh and unique, every outstanding promise belongs to a distinct
`processing` job, `activeWorkers` counts the `processing` jobs and never
exceeds the limit, and result/error fields track the status. -/
structure AppInv (s : AppState) : Prop where
  idsLt : ∀ j ∈ s.jobs, j.id < s.nextId
  idsNodup : (s.jobs.map RemovalJob.id).Nodup
  inflightProc : ∀ i ∈ s.inflight,
    ∃ j ∈ s.jobs, j.id = i ∧ j.status = JobStatus.processing
  inflightNodup : s.inflight.Nodup
  activeEq : s.activeWorkers = processingCount s.jobs
  activeLe : s.activeWorkers ≤ MAX_PARALLEL_JOBS
  fieldsOk : ∀ j ∈ s.jobs,
    (j.resultBlob.isSome ↔ j.status = JobStatus.ready) ∧
    (j.resultUrl.isSome ↔ j.status = JobStatus.ready) ∧
    (j.error.isSome ↔ j.status = JobStatus.error)

theorem inv_init : AppInv initState := by
  constructor <;> simp [initState, processingCount, MAX_PARALLEL_JOBS]

theorem inv_runJobStart {s : AppState} {j : RemovalJob} (hs : AppInv s)
    (hfind : findPending s.jobs = some j)
    (hlt : s.activeWorkers < MAX_PARALLEL_JOBS) :
    AppInv (runJobStart s j.id) := by
  obtain ⟨hjmem, hjpend⟩ := findPending_mem hfind
  constructor
  · intro x hx
    rcases mem_setJob hx with ⟨y, hy, hxy⟩
    have hxid : x.id = y.id := by
      by_cases hid : y.id = j.id
      · rw [if_pos hid] at hxy; rw [hxy]
      · rw [if_neg hid] at hxy; rw [hxy]
    rw [hxid]
    exact hs.idsLt y hy
  · rw [runJobStart_map_id]; exact hs.idsNodup
  · intro i hi
    rcases List.mem_append.mp hi with hi' | hi'
    · rcases hs.inflightProc i hi' with ⟨k, hk, hki, hkp⟩
      have hkj : ¬ k.id = j.id := by
        intro he
        have hkj' : k = j := eq_of_mem_id hs.idsNodup hk hjmem he
        rw [hkj', hjpend] at hkp
        cases hkp
      exact ⟨k, mem_setJob_of_ne hk hkj, hki, hkp⟩
    · have : i = j.id := by simpa using hi'
      subst this
      exact ⟨_, mem_setJob_self hjmem rfl, rfl, rfl⟩
  · refine List.Nodup.append hs.inflightNodup (by simp) ?_
    intro a ha hb
    have : a = j.id := by simpa using hb
    subst this
    rcases hs.inflightProc _ ha with ⟨k, hk, hki, hkp⟩
    have hkj : k = j := eq_of_mem_id hs.idsNodup hk hjmem hki
    rw [hkj, hjpend] at hkp
    cases hkp
  · show s.activeWorkers + 1 = processingCount (setJob s.jobs j.id _)
    rw [processingCount_setJob_start hs.idsNodup hjmem hjpend, hs.activeEq]
  · exact hlt
  · intro x hx
    rcases mem_setJob hx with ⟨y, hy, hxy⟩
    by_cases hid : y.id = j.id
    · have hyj : y = j := eq_of_mem_id hs.idsNodup hy hjmem hid
      have hyp : y.status = JobStatus.pending := by rw [hyj]; exact hjpend
      rw [if_pos hid] at hxy
      rw [hxy]
      rcases hs.fieldsOk y hy with ⟨h1, h2, h3⟩
      rw [hyp] at h1 h2
      refine ⟨?_, ?_, ?_⟩
      · simpa using h1
      · simpa using h2
      · simp
    · rw [if_neg hid] at hxy
      rw [hxy]
      exact hs.fieldsOk y hy

theorem inv_startLoop {fuel : Nat} :
    ∀ {s : AppState}, AppInv s → AppInv (startLoop fuel s) := by
  induction fuel with
  | zero => intro s hs; exact hs
  | succ n ih =>
    intro s hs
    rw [startLoop_succ]
    by_cases hlt : s.activeWorkers < MAX_PARALLEL_JOBS
    · rw [if_pos hlt]
      cases hfind : findPending s.jobs with
      | none => exact hs
      | some j => exact ih (inv_runJobStart hs hfind hlt)
    · rw [if_neg hlt]; exact hs

theorem inv_startNextJobs {s : AppState} (hs : AppInv s) :
    AppInv (startNextJobs s) := inv_startLoop hs

theorem addFilesLoop_cons (f : JsFile) (fs : List JsFile) (s : AppState)
    (added rejected : Nat) :
    addFilesLoop (f :: fs) s added rejected =
      if ¬ strStartsWith f.type "image/" then
        addFilesLoop fs s added rejected
      else if f.size > MAX_FILE_SIZE_BYTES then
        addFilesLoop fs s added (rejected + 1)
      else
        addFilesLoop fs
          { s with
            jobs := s.jobs ++ [createJob s.nextId s.nextUrl f]
            nextId := s.nextId + 1
            nextUrl := s.nextUrl + 1 }
          (added + 1) rejected := rfl

theorem inv_appendJob {s : AppState} (hs : AppInv s) (f : JsFile) :
    AppInv
      { s with
        jobs := s.jobs ++ [createJob s.nextId s.nextUrl f]
        nextId := s.nextId + 1
        nextUrl := s.nextUrl + 1 } := by
  constructor
  · intro x hx
    rcases List.mem_append.mp hx with h | h
    · exact Nat.lt_succ_of_lt (hs.idsLt x h)
    · have hx' : x = createJob s.nextId s.nextUrl f := by simpa using h
      rw [hx']
      exact Nat.lt_succ_self _
  · show ((s.jobs ++ [createJob s.nextId s.nextUrl f]).map RemovalJob.id).Nodup
    rw [List.map_append]
    refine List.Nodup.append hs.idsNodup (by simp) ?_
    intro a ha hb
    have hb' : a = s.nextId := by simpa [createJob] using hb
    subst hb'
    rcases List.mem_map.mp ha with ⟨k, hk, hkid⟩
    have := hs.idsLt k hk
    omega
  · intro i hi
    rcases hs.inflightProc i hi with ⟨k, hk, hki, hkp⟩
    exact ⟨k, List.mem_append_left _ hk, hki, hkp⟩
  · exact hs.inflightNodup
  · show s.activeWorkers =
      processingCount (s.jobs ++ [createJob s.nextId s.nextUrl f])
    unfold processingCount
    rw [List.countP_append, hs.activeEq]
    simp [createJob, processingCount]
  · exact hs.activeLe
  · intro x hx
    rcases List.mem_append.mp hx with h | h
    · exact hs.fieldsOk x h
    · have hx' : x = createJob s.nextId s.nextUrl f := by simpa using h
      rw [hx']
      simp [createJob]

theorem inv_addFilesLoop (files : List JsFile) :
    ∀ (s : AppState) (added rejected : Nat), AppInv s →
      AppInv (addFilesLoop files s added rejected).1 := by
  induction files with
  | nil => intro s added rejected hs; exact hs
  | cons f fs ih =>
    intro s added rejected hs
    rw [addFilesLoop_cons]
    by_cases h1 : ¬ strStartsWith f.type "image/"
    · rw [if_pos h1]; exact ih s added rejected hs
    · rw [if_neg h1]
      by_cases h2 : f.size > MAX_FILE_SIZE_BYTES
      · rw [if_pos h2]; exact ih s added (rejected + 1) hs
      · rw [if_neg h2]; exact ih _ (added + 1) rejected (inv_appendJob hs f)

theorem inv_addFiles {files : List JsFile} {s : AppState} (hs : AppInv s) :
    AppInv (addFiles files s).1 := by
  unfold addFiles
  have hloop := inv_addFilesLoop files s 0 0 hs
  cases hval : addFilesLoop files s 0 0 with
  | mk s1 rest =>
    rw [hval] at hloop
    by_cases hadd : rest.1 > 0
    · simpa [hadd] using inv_startNextJobs hloop
    · simpa [hadd] using hloop

theorem countP_filter_ne {jobs : List RemovalJob} {j : RemovalJob}
    (p : RemovalJob → Bool) (hnd : (jobs.map RemovalJob.id).Nodup)
    (hmem : j ∈ jobs) (hp : p j = false) :
    (jobs.filter (fun k => decide (¬ k.id = j.id))).countP p =
      jobs.countP p := by
  rw [List.countP_filter]
  refine List.countP_congr (fun x hx => ?_)
  constructor
  · intro h
    exact (Bool.and_elim_left h)
  · intro h
    refine Bool.and_intro h (decide_eq_true (fun hid => ?_))
    have hxj : x = j := eq_of_mem_id hnd hx hmem hid
    rw [hxj, hp] at h
    cases h

theorem removeJob_notFound {s : AppState} {id : Nat}
    (hfind : s.jobs.find? (fun k => decide (k.id = id)) = none) :
    removeJob s id = (s, RemoveResult.notFound, []) := by
  unfold removeJob
  rw [hfind]

theorem removeJob_found {s : AppState} {id : Nat} {j : RemovalJob}
    (hfind : s.jobs.find? (fun k => decide (k.id = id)) = some j) :
    removeJob s id =
      if j.status = JobStatus.processing then
        (s, RemoveResult.invalidState, [])
      else
        ({ s with jobs := s.jobs.filter (fun k => decide (¬ k.id = id)) },
          RemoveResult.removed, (cleanupJobUrls j).2) := by
  unfold removeJob
  rw [hfind]

theorem retryJob_notFound {s : AppState} {id : Nat}
    (hfind : s.jobs.find? (fun k => decide (k.id = id)) = none) :
    retryJob s id = s := by
  unfold retryJob
  rw [hfind]

theorem retryJob_found {s : AppState} {id : Nat} {j : RemovalJob}
    (hfind : s.jobs.find? (fun k => decide (k.id = id)) = some j) :
    retryJob s id =
      if j.status = JobStatus.error then startNextJobs (retrySet s id)
      else s := by
  unfold retryJob
  rw [hfind]

theorem inv_removeJob {s : AppState} {id : Nat} (hs : AppInv s) :
    AppInv (removeJob s id).1 := by
  cases hfind : s.jobs.find? (fun k => decide (k.id = id)) with
  | none => rw [removeJob_notFound hfind]; exact hs
  | some j =>
    rw [removeJob_found hfind]
    have hjmem : j ∈ s.jobs := List.mem_of_find?_eq_some hfind
    have hjid : j.id = id := by
      have := List.find?_some hfind
      simpa using this
    subst hjid
    by_cases hp : j.status = JobStatus.processing
    · rw [if_pos hp]; exact hs
    · rw [if_neg hp]
      constructor
      · intro x hx
        exact hs.idsLt x (List.mem_filter.mp hx).1
      · exact List.Nodup.sublist
          (List.Sublist.map RemovalJob.id (List.filter_sublist s.jobs))
          hs.idsNodup
      · intro i hi
        rcases hs.inflightProc i hi with ⟨k, hk, hki, hkp⟩
        have hkj : ¬ k.id = j.id := by
          intro he
          have hkj' : k = j := eq_of_mem_id hs.idsNodup hk hjmem he
          rw [hkj'] at hkp
          exact hp hkp
        refine ⟨k, List.mem_filter.mpr ⟨hk, by simpa using hkj⟩, hki, hkp⟩
      · exact hs.inflightNodup
      · show s.activeWorkers = processingCount (s.jobs.filter _)
        unfold processingCount
        rw [countP_filter_ne _ hs.idsNodup hjmem (by simp [hp]), hs.activeEq]
        rfl
      · exact hs.activeLe
      · intro x hx
        exact hs.fieldsOk x (List.mem_filter.mp hx).1

theorem inv_retrySet {s : AppState} {j : RemovalJob} (hs : AppInv s)
    (hjmem : j ∈ s.jobs) (hje : j.status = JobStatus.error) :
    AppInv (retrySet s j.id) := by
  have hnp : ¬ j.status = JobStatus.processing := by rw [hje]; simp
  constructor
  · intro x hx
    rcases mem_setJob hx with ⟨y, hy, hxy⟩
    have hxid : x.id = y.id := by
      by_cases hid : y.id = j.id
      · rw [if_pos hid] at hxy; rw [hxy]
      · rw [if_neg hid] at hxy; rw [hxy]
    rw [hxid]
    exact hs.idsLt y hy
  · show ((setJob s.jobs j.id _).map RemovalJob.id).Nodup
    rw [setJob_map_comp
      (f := fun k => { k with status := JobStatus.pending, error := none })
      RemovalJob.id (fun _ => rfl)]
    exact hs.idsNodup
  · intro i hi
    rcases hs.inflightProc i hi with ⟨k, hk, hki, hkp⟩
    have hkj : ¬ k.id = j.id := by
      intro he
      have hkj' : k = j := eq_of_mem_id hs.idsNodup hk hjmem he
      rw [hkj'] at hkp
      exact hnp hkp
    exact ⟨k, mem_setJob_of_ne hk hkj, hki, hkp⟩
  · exact hs.inflightNodup
  · show s.activeWorkers = processingCount (setJob s.jobs j.id _)
    rw [processingCount_setJob_keep hs.idsNodup hjmem hnp (by simp)]
    exact hs.activeEq
  · exact hs.activeLe
  · intro x hx
    rcases mem_setJob hx with ⟨y, hy, hxy⟩
    by_cases hid : y.id = j.id
    · have hyj : y = j := eq_of_mem_id hs.idsNodup hy hjmem hid
      have hye : y.status = JobStatus.error := by rw [hyj]; exact hje
      rw [if_pos hid] at hxy
      rw [hxy]
      rcases hs.fieldsOk y hy with ⟨h1, h2, h3⟩
      rw [hye] at h1 h2
      refine ⟨?_, ?_, ?_⟩
      · simpa using h1
      · simpa using h2
      · simp
    · rw [if_neg hid] at hxy
      rw [hxy]
      exact hs.fieldsOk y hy

theorem inv_retryJob {s : AppState} {id : Nat} (hs : AppInv s) :
    AppInv (retryJob s id) := by
  cases hfind : s.jobs.find? (fun k => decide (k.id = id)) with
  | none => rw [retryJob_notFound hfind]; exact hs
  | some j =>
    rw [retryJob_found hfind]
    have hjmem : j ∈ s.jobs := List.mem_of_find?_eq_some hfind
    have hjid : j.id = id := by
      have := List.find?_some hfind
      simpa using this
    subst hjid
    by_cases he : j.status = JobStatus.error
    · rw [if_pos he]
      exact inv_startNextJobs (inv_retrySet hs hjmem he)
    · rw [if_neg he]; exact hs

theorem runJobSettle_success (s : AppState) (id : Nat) (b : Blob) :
    runJobSettle s id (RemovalOutcome.success b) =
      startNextJobs
        { jobs := setJob s.jobs id
            (fun j =>
              { j with
                resultBlob := some b
                resultUrl := some (createObjectURL s.nextUrl)
                status := JobStatus.ready })
          activeWorkers := max 0 (s.activeWorkers - 1)
          inflight := s.inflight.erase id
          nextId := s.nextId
          nextUrl := s.nextUrl + 1 } := rfl

theorem runJobSettle_failure (s : AppState) (id : Nat) (msg : String) :
    runJobSettle s id (RemovalOutcome.failure msg) =
      startNextJobs
        { jobs := setJob s.jobs id
            (fun j => { j with status := JobStatus.error, error := some msg })
          activeWorkers := max 0 (s.activeWorkers - 1)
          inflight := s.inflight.erase id
          nextId := s.nextId
          nextUrl := s.nextUrl } := rfl

theorem inv_settleCore {s : AppState} {j : RemovalJob}
    {f : RemovalJob → RemovalJob} {url' : Nat} (hs : AppInv s)
    (hjmem : j ∈ s.jobs) (hjproc : j.status = JobStatus.processing)
    (hfid : ∀ k, (f k).id = k.id)
    (hfstat : ¬ (f j).status = JobStatus.processing)
    (hfOk : ((f j).resultBlob.isSome ↔ (f j).status = JobStatus.ready) ∧
      ((f j).resultUrl.isSome ↔ (f j).status = JobStatus.ready) ∧
      ((f j).error.isSome ↔ (f j).status = JobStatus.error)) :
    AppInv
      { jobs := setJob s.jobs j.id f
        activeWorkers := max 0 (s.activeWorkers - 1)
        inflight := s.inflight.erase j.id
        nextId := s.nextId
        nextUrl := url' } := by
  have hpos : 0 < processingCount s.jobs := by
    unfold processingCount
    exact List.countP_pos_iff.mpr ⟨j, hjmem, by simp [hjproc]⟩
  have hstop := processingCount_setJob_stop hs.idsNodup hjmem hjproc hfstat
  constructor
  · intro x hx
    rcases mem_setJob hx with ⟨y, hy, hxy⟩
    have hxid : x.id = y.id := by
      by_cases hid : y.id = j.id
      · rw [if_pos hid] at hxy; rw [hxy]; exact hfid y
      · rw [if_neg hid] at hxy; rw [hxy]
    rw [hxid]
    exact hs.idsLt y hy
  · show ((setJob s.jobs j.id f).map RemovalJob.id).Nodup
    rw [setJob_map_comp RemovalJob.id hfid]
    exact hs.idsNodup
  · intro i hi
    have hi' := (List.Nodup.mem_erase_iff hs.inflightNodup).mp hi
    rcases hs.inflightProc i hi'.2 with ⟨k, hk, hki, hkp⟩
    have hkj : ¬ k.id = j.id := by
      intro he
      exact hi'.1 (by rw [← hki, he])
    exact ⟨k, mem_setJob_of_ne hk hkj, hki, hkp⟩
  · exact List.Nodup.erase _ hs.inflightNodup
  · show max 0 (s.activeWorkers - 1) = processingCount (setJob s.jobs j.id f)
    rw [← hs.activeEq] at hpos hstop
    omega
  · show max 0 (s.activeWorkers - 1) ≤ MAX_PARALLEL_JOBS
    have := hs.activeLe
    omega
  · intro x hx
    rcases mem_setJob hx with ⟨y, hy, hxy⟩
    by_cases hid : y.id = j.id
    · have hyj : y = j := eq_of_mem_id hs.idsNodup hy hjmem hid
      rw [if_pos hid] at hxy
      rw [hxy, hyj]
      exact hfOk
    · rw [if_neg hid] at hxy
      rw [hxy]
      exact hs.fieldsOk y hy

theorem inv_runJobSettle {s : AppState} {id : Nat} {out : RemovalOutcome}
    (hs : AppInv s) (h : id ∈ s.inflight) :
    AppInv (runJobSettle s id out) := by
  rcases hs.inflightProc id h with ⟨j, hjmem, hjid, hjproc⟩
  subst hjid
  rcases hs.fieldsOk j hjmem with ⟨hb, hu, he⟩
  rw [hjproc] at hb hu he
  cases out with
  | success b =>
    rw [runJobSettle_success]
    refine inv_startNextJobs (inv_settleCore hs hjmem hjproc (fun k => rfl)
      (by simp) ?_)
    refine ⟨by simp, by simp, ?_⟩
    show j.error.isSome ↔ JobStatus.ready = JobStatus.error
    constructor
    · intro hx
      exact absurd (he.mp hx) (by simp)
    · intro hx
      cases hx
  | failure msg =>
    rw [runJobSettle_failure]
    refine inv_startNextJobs (inv_settleCore hs hjmem hjproc (fun k => rfl)
      (by simp) ?_)
    refine ⟨?_, ?_, by simp⟩
    · show j.resultBlob.isSome ↔ JobStatus.error = JobStatus.ready
      constructor
      · intro hx
        exact absurd (hb.mp hx) (by simp)
      · intro hx
        cases hx
    · show j.resultUrl.isSome ↔ JobStatus.error = JobStatus.ready
      constructor
      · intro hx
        exact absurd (hu.mp hx) (by simp)
      · intro hx
        cases hx

theorem inv_step {s s' : AppState} (hs : AppInv s) (hstep : Step s s') :
    AppInv s' := by
  cases hstep with
  | add files s => exact inv_addFiles hs
  | remove id s => exact inv_removeJob hs
  | retry id s => exact inv_retryJob hs
  | settle id out s h => exact inv_runJobSettle hs h

theorem inv_reachable {s : AppState} (h : Reachable s) : AppInv s := by
  induction h with
  | init => exact inv_init
  | step hr hstep ih => exact inv_step ih hstep

/-! ### Scheduler postcondition, conservation and idempotence -/

theorem startLoop_fix {fuel : Nat} {s : AppState}
    (h : s.activeWorkers = MAX_PARALLEL_JOBS ∨ findPending s.jobs = none) :
    startLoop fuel s = s := by
  cases fuel with
  | zero => rfl
  | succ n =>
    rw [startLoop_succ]
    rcases h with h | h
    · rw [if_neg (by omega)]
    · by_cases hlt : s.activeWorkers < MAX_PARALLEL_JOBS
      · rw [if_pos hlt, h]
      · rw [if_neg hlt]

theorem startLoop_post {fuel : Nat} :
    ∀ {s : AppState}, AppInv s → pendingCount s.jobs ≤ fuel →
      (startLoop fuel s).activeWorkers = MAX_PARALLEL_JOBS ∨
        findPending (startLoop fuel s).jobs = none := by
  induction fuel with
  | zero =>
    intro s hs hf
    right
    exact pendingCount_eq_zero.mp (Nat.le_zero.mp hf)
  | succ n ih =>
    intro s hs hf
    rw [startLoop_succ]
    by_cases hlt : s.activeWorkers < MAX_PARALLEL_JOBS
    · rw [if_pos hlt]
      cases hfind : findPending s.jobs with
      | none => right; exact hfind
      | some j =>
        obtain ⟨hjmem, hjpend⟩ := findPending_mem hfind
        have hdec := pendingCount_setJob_start hs.idsNodup hjmem hjpend
        refine ih (inv_runJobStart hs hfind hlt) ?_
        show pendingCount (setJob s.jobs j.id _) ≤ n
        omega
    · rw [if_neg hlt]
      left
      have := hs.activeLe
      omega

theorem startNextJobs_post {s : AppState} (hs : AppInv s) :
    (startNextJobs s).activeWorkers = MAX_PARALLEL_JOBS ∨
      findPending (startNextJobs s).jobs = none := by
  refine startLoop_post hs ?_
  unfold pendingCount
  exact List.countP_le_length ..

theorem startNextJobs_idem {s : AppState} (hs : AppInv s) :
    startNextJobs (startNextJobs s) = startNextJobs s :=
  startLoop_fix (startNextJobs_post hs)

theorem startLoop_sum {fuel : Nat} :
    ∀ {s : AppState}, AppInv s →
      (startLoop fuel s).activeWorkers +
          pendingCount (startLoop fuel s).jobs =
        s.activeWorkers + pendingCount s.jobs := by
  induction fuel with
  | zero => intro s _; rfl
  | succ n ih =>
    intro s hs
    rw [startLoop_succ]
    by_cases hlt : s.activeWorkers < MAX_PARALLEL_JOBS
    · rw [if_pos hlt]
      cases hfind : findPending s.jobs with
      | none => rfl
      | some j =>
        rw [ih (inv_runJobStart hs hfind hlt)]
        obtain ⟨hjmem, hjpend⟩ := findPending_mem hfind
        have hdec := pendingCount_setJob_start hs.idsNodup hjmem hjpend
        show s.activeWorkers + 1 + pendingCount (setJob s.jobs j.id _) =
          s.activeWorkers + pendingCount s.jobs
        omega
    · rw [if_neg hlt]

theorem startNextJobs_sum {s : AppState} (hs : AppInv s) :
    (startNextJobs s).activeWorkers +
        pendingCount (startNextJobs s).jobs =
      s.activeWorkers + pendingCount s.jobs :=
  startLoop_sum hs

/-! ### What addFiles does to the store -/

theorem addFiles_eq (files : List JsFile) (s : AppState) :
    addFiles files s =
      ((if (addFilesLoop files s 0 0).2.1 > 0
          then startNextJobs (addFilesLoop files s 0 0).1
          else (addFilesLoop files s 0 0).1),
        (addFilesLoop files s 0 0).2.1, (addFilesLoop files s 0 0).2.2) := by
  unfold addFiles
  cases addFilesLoop files s 0 0 with
  | mk s1 rest => cases rest with | mk a r => rfl

theorem addFilesLoop_mono (files : List JsFile) :
    ∀ (s : AppState) (added rejected : Nat), ∀ x ∈ s.jobs,
      x ∈ (addFilesLoop files s added rejected).1.jobs := by
  induction files with
  | nil => intro s added rejected x hx; exact hx
  | cons f fs ih =>
    intro s added rejected x hx
    rw [addFilesLoop_cons]
    by_cases h1 : ¬ strStartsWith f.type "image/"
    · rw [if_pos h1]; exact ih s added rejected x hx
    · rw [if_neg h1]
      by_cases h2 : f.size > MAX_FILE_SIZE_BYTES
      · rw [if_pos h2]; exact ih s added (rejected + 1) x hx
      · rw [if_neg h2]
        exact ih _ (added + 1) rejected x (List.mem_append_left _ hx)

theorem addFilesLoop_jobs_back (files : List JsFile) :
    ∀ (s : AppState) (added rejected : Nat),
      ∀ x ∈ (addFilesLoop files s added rejected).1.jobs,
        x ∈ s.jobs ∨
          (s.nextId ≤ x.id ∧ x.status = JobStatus.pending ∧
            strStartsWith x.file.type "image/" = true ∧
            ¬ x.file.size > MAX_FILE_SIZE_BYTES ∧ x.file ∈ files) := by
  induction files with
  | nil => intro s added rejected x hx; exact Or.inl hx
  | cons f fs ih =>
    intro s added rejected x hx
    rw [addFilesLoop_cons] at hx
    by_cases h1 : ¬ strStartsWith f.type "image/"
    · rw [if_pos h1] at hx
      rcases ih s added rejected x hx with h | ⟨ha, hb, hc, hd, he⟩
      · exact Or.inl h
      · exact Or.inr ⟨ha, hb, hc, hd, List.mem_cons_of_mem f he⟩
    · rw [if_neg h1] at hx
      by_cases h2 : f.size > MAX_FILE_SIZE_BYTES
      · rw [if_pos h2] at hx
        rcases ih s added (rejected + 1) x hx with h | ⟨ha, hb, hc, hd, he⟩
        · exact Or.inl h
        · exact Or.inr ⟨ha, hb, hc, hd, List.mem_cons_of_mem f he⟩
      · rw [if_neg h2] at hx
        rcases ih _ (added + 1) rejected x hx with h | ⟨ha, hb, hc, hd, he⟩
        · rcases List.mem_append.mp h with h' | h'
          · exact Or.inl h'
          · have hx' : x = createJob s.nextId s.nextUrl f := by simpa using h'
            refine Or.inr ⟨?_, ?_, ?_, ?_, ?_⟩
            · rw [hx']; exact Nat.le_refl _
            · rw [hx']; rfl
            · rw [hx']
              show strStartsWith f.type "image/" = true
              exact Bool.of_not_eq_false (by simpa using h1)
            · rw [hx']; exact h2
            · rw [hx']; exact List.mem_cons_self f fs
        · refine Or.inr ⟨?_, hb, hc, hd, List.mem_cons_of_mem f he⟩
          have ha' : s.nextId + 1 ≤ x.id := ha
          omega

theorem addFilesLoop_rejected (files : List JsFile) :
    ∀ (s : AppState) (added rejected : Nat),
      (addFilesLoop files s added rejected).2.2 =
        rejected + files.countP
          (fun f => strStartsWith f.type "image/" &&
            decide (f.size > MAX_FILE_SIZE_BYTES)) := by
  induction files with
  | nil => intro s added rejected; rfl
  | cons f fs ih =>
    intro s added rejected
    rw [addFilesLoop_cons, List.countP_cons]
    by_cases h1 : ¬ strStartsWith f.type "image/"
    · have he : (if (strStartsWith f.type "image/" &&
          decide (f.size > MAX_FILE_SIZE_BYTES)) = true then 1 else 0) = 0 := by
        rw [Bool.not_eq_true] at h1
        rw [h1]
        simp
      rw [if_pos h1, ih, he]
      omega
    · rw [if_neg h1]
      have h1' : strStartsWith f.type "image/" = true :=
        Bool.of_not_eq_false (by simpa using h1)
      by_cases h2 : f.size > MAX_FILE_SIZE_BYTES
      · have he : (if (strStartsWith f.type "image/" &&
            decide (f.size > MAX_FILE_SIZE_BYTES)) = true then 1 else 0) = 1 := by
          rw [h1', decide_eq_true h2]
          simp
        rw [if_pos h2, ih, he]
        omega
      · have he : (if (strStartsWith f.type "image/" &&
            decide (f.size > MAX_FILE_SIZE_BYTES)) = true then 1 else 0) = 0 := by
          rw [h1', decide_eq_false h2]
          simp
        rw [if_neg h2, ih, he]
        omega

theorem addFilesLoop_accepts (files : List JsFile) :
    ∀ (s : AppState) (added rejected : Nat), ∀ f ∈ files,
      strStartsWith f.type "image/" = true →
      ¬ f.size > MAX_FILE_SIZE_BYTES →
      ∃ j ∈ (addFilesLoop files s added rejected).1.jobs, j.file = f := by
  induction files with
  | nil => intro s added rejected f hf; cases hf
  | cons g fs ih =>
    intro s added rejected f hf himg hsize
    rw [addFilesLoop_cons]
    rcases List.mem_cons.mp hf with rfl | hf'
    · rw [if_neg (by simp [himg]), if_neg hsize]
      refine ⟨createJob s.nextId s.nextUrl f, ?_, rfl⟩
      exact addFilesLoop_mono fs _ (added + 1) rejected _
        (List.mem_append_right _ (List.mem_singleton_self _))
    · by_cases h1 : ¬ strStartsWith g.type "image/"
      · rw [if_pos h1]; exact ih s added rejected f hf' himg hsize
      · rw [if_neg h1]
        by_cases h2 : g.size > MAX_FILE_SIZE_BYTES
        · rw [if_pos h2]; exact ih s added (rejected + 1) f hf' himg hsize
        · rw [if_neg h2]; exact ih _ (added + 1) rejected f hf' himg hsize

theorem startNextJobs_files_back {s : AppState} :
    ∀ x ∈ (startNextJobs s).jobs, ∃ y ∈ s.jobs, y.file = x.file := by
  intro x hx
  have hpair : (x.id, x.file) ∈
      (startLoop s.jobs.length s).jobs.map (fun j => (j.id, j.file)) :=
    List.mem_map_of_mem _ hx
  rw [startLoop_idfile] at hpair
  rcases List.mem_map.mp hpair with ⟨y, hy, hyy⟩
  refine ⟨y, hy, ?_⟩
  have := congrArg Prod.snd hyy
  simpa using this

theorem startNextJobs_files_fwd {s : AppState} :
    ∀ y ∈ s.jobs, ∃ x ∈ (startNextJobs s).jobs, x.file = y.file := by
  intro y hy
  have hpair : (y.id, y.file) ∈ s.jobs.map (fun j => (j.id, j.file)) :=
    List.mem_map_of_mem _ hy
  have hmap := @startLoop_idfile s.jobs.length s
  rw [← hmap] at hpair
  rcases List.mem_map.mp hpair with ⟨x, hx, hxx⟩
  refine ⟨x, hx, ?_⟩
  have := congrArg Prod.snd hxx
  simpa using this

/-! ### The per-job status state machine -/

/-- The status changes one observable event-loop step may apply to a job:
stay, admission (`pending -> processing`), settling
(`processing -> ready | error`), or retry (`error -> pending`, possibly
followed in the same handler by immediate re-admission to `processing`
through the intermediate `pending` state of `retrySet`). -/
def statusEdgeOK (a b : JobStatus) : Prop :=
  a = b ∨
    (a = JobStatus.pending ∧ b = JobStatus.processing) ∨
    (a = JobStatus.processing ∧
      (b = JobStatus.ready ∨ b = JobStatus.error)) ∨
    (a = JobStatus.error ∧
      (b = JobStatus.pending ∨ b = JobStatus.processing))

theorem microOK_statusEdge {y x : RemovalJob} (h : microOK y x) :
    statusEdgeOK y.status x.status := by
  rcases h with rfl | ⟨hp, rfl⟩
  · exact Or.inl rfl
  · exact Or.inr (Or.inl ⟨hp, rfl⟩)

theorem addFiles_jobs_back {files : List JsFile} {s : AppState}
    (hs : AppInv s) :
    ∀ x ∈ (addFiles files s).1.jobs,
      (∃ y ∈ s.jobs, y.id = x.id ∧ statusEdgeOK y.status x.status) ∨
        s.nextId ≤ x.id := by
  intro x hx
  rw [addFiles_eq] at hx
  have hs1 : AppInv (addFilesLoop files s 0 0).1 := inv_addFilesLoop files s 0 0 hs
  by_cases hadd : (addFilesLoop files s 0 0).2.1 > 0
  · rw [if_pos hadd] at hx
    rcases startLoop_jobs_back hs1.idsNodup x hx with ⟨y1, hy1, hid1, hm1⟩
    rcases addFilesLoop_jobs_back files s 0 0 y1 hy1 with h | ⟨ha, _, _, _, _⟩
    · exact Or.inl ⟨y1, h, hid1, microOK_statusEdge hm1⟩
    · right
      rw [← hid1]
      exact ha
  · rw [if_neg hadd] at hx
    rcases addFilesLoop_jobs_back files s 0 0 x hx with h | ⟨ha, _, _, _, _⟩
    · exact Or.inl ⟨x, h, rfl, Or.inl rfl⟩
    · exact Or.inr ha

theorem removeJob_jobs_back {s : AppState} {id : Nat} :
    ∀ x ∈ (removeJob s id).1.jobs, x ∈ s.jobs := by
  intro x hx
  cases hfind : s.jobs.find? (fun k => decide (k.id = id)) with
  | none => rw [removeJob_notFound hfind] at hx; exact hx
  | some j =>
    rw [removeJob_found hfind] at hx
    by_cases hp : j.status = JobStatus.processing
    · rw [if_pos hp] at hx; exact hx
    · rw [if_neg hp] at hx
      exact (List.mem_filter.mp hx).1

theorem retryJob_jobs_back {s : AppState} {id : Nat} (hs : AppInv s) :
    ∀ x ∈ (retryJob s id).jobs,
      ∃ y ∈ s.jobs, y.id = x.id ∧ statusEdgeOK y.status x.status := by
  intro x hx
  cases hfind : s.jobs.find? (fun k => decide (k.id = id)) with
  | none =>
    rw [retryJob_notFound hfind] at hx
    exact ⟨x, hx, rfl, Or.inl rfl⟩
  | some j =>
    rw [retryJob_found hfind] at hx
    have hjmem : j ∈ s.jobs := List.mem_of_find?_eq_some hfind
    have hjid : j.id = id := by
      have := List.find?_some hfind
      simpa using this
    subst hjid
    by_cases he : j.status = JobStatus.error
    · rw [if_pos he] at hx
      have hr := inv_retrySet hs hjmem he
      rcases startLoop_jobs_back hr.idsNodup x hx with ⟨y1, hy1, hid1, hm1⟩
      rcases mem_setJob hy1 with ⟨z, hz, hy1z⟩
      by_cases hzid : z.id = j.id
      · have hzj : z = j := eq_of_mem_id hs.idsNodup hz hjmem hzid
        rw [if_pos hzid] at hy1z
        have hy1p : y1.status = JobStatus.pending := by rw [hy1z]
        have hzstat : z.status = JobStatus.error := by rw [hzj]; exact he
        refine ⟨z, hz, ?_, ?_⟩
        · rw [← hid1, hy1z]
        · rcases hm1 with rfl | ⟨_, rfl⟩
          · exact Or.inr (Or.inr (Or.inr ⟨hzstat, Or.inl hy1p⟩))
          · exact Or.inr (Or.inr (Or.inr ⟨hzstat, Or.inr rfl⟩))
      · rw [if_neg hzid] at hy1z
        rw [hy1z] at hm1 hid1
        exact ⟨z, hz, hid1, microOK_statusEdge hm1⟩
    · rw [if_neg he] at hx
      exact ⟨x, hx, rfl, Or.inl rfl⟩

theorem runJobSettle_jobs_back {s : AppState} {id : Nat}
    {out : RemovalOutcome} (hs : AppInv s) (h : id ∈ s.inflight) :
    ∀ x ∈ (runJobSettle s id out).jobs,
      ∃ y ∈ s.jobs, y.id = x.id ∧ statusEdgeOK y.status x.status := by
  rcases hs.inflightProc id h with ⟨j, hjmem, hjid, hjproc⟩
  subst hjid
  intro x hx
  cases out with
  | success b =>
    rw [runJobSettle_success] at hx
    have hnd2 : ((setJob s.jobs j.id
        (fun k =>
          { k with
            resultBlob := some b
            resultUrl := some (createObjectURL s.nextUrl)
            status := JobStatus.ready })).map RemovalJob.id).Nodup := by
      rw [setJob_map_comp
        (f := fun k =>
          { k with
            resultBlob := some b
            resultUrl := some (createObjectURL s.nextUrl)
            status := JobStatus.ready })
        RemovalJob.id (fun _ => rfl)]
      exact hs.idsNodup
    rcases startLoop_jobs_back hnd2 x hx with ⟨y1, hy1, hid1, hm1⟩
    rcases mem_setJob hy1 with ⟨z, hz, hy1z⟩
    by_cases hzid : z.id = j.id
    · have hzj : z = j := eq_of_mem_id hs.idsNodup hz hjmem hzid
      rw [if_pos hzid] at hy1z
      have hy1r : y1.status = JobStatus.ready := by rw [hy1z]
      have hzstat : z.status = JobStatus.processing := by
        rw [hzj]; exact hjproc
      have hxy1 : x = y1 := by
        rcases hm1 with rfl | ⟨hp, _⟩
        · rfl
        · rw [hy1r] at hp; cases hp
      refine ⟨z, hz, ?_, ?_⟩
      · rw [← hid1, hy1z]
      · rw [hxy1, hy1r]
        exact Or.inr (Or.inr (Or.inl ⟨hzstat, Or.inl rfl⟩))
    · rw [if_neg hzid] at hy1z
      rw [hy1z] at hm1 hid1
      exact ⟨z, hz, hid1, microOK_statusEdge hm1⟩
  | failure msg =>
    rw [runJobSettle_failure] at hx
    have hnd2 : ((setJob s.jobs j.id
        (fun k =>
          { k with status := JobStatus.error, error := some msg })).map
          RemovalJob.id).Nodup := by
      rw [setJob_map_comp
        (f := fun k => { k with status := JobStatus.error, error := some msg })
        RemovalJob.id (fun _ => rfl)]
      exact hs.idsNodup
    rcases startLoop_jobs_back hnd2 x hx with ⟨y1, hy1, hid1, hm1⟩
    rcases mem_setJob hy1 with ⟨z, hz, hy1z⟩
    by_cases hzid : z.id = j.id
    · have hzj : z = j := eq_of_mem_id hs.idsNodup hz hjmem hzid
      rw [if_pos hzid] at hy1z
      have hy1r : y1.status = JobStatus.error := by rw [hy1z]
      have hzstat : z.status = JobStatus.processing := by
        rw [hzj]; exact hjproc
      have hxy1 : x = y1 := by
        rcases hm1 with rfl | ⟨hp, _⟩
        · rfl
        · rw [hy1r] at hp; cases hp
      refine ⟨z, hz, ?_, ?_⟩
      · rw [← hid1, hy1z]
      · rw [hxy1, hy1r]
        exact Or.inr (Or.inr (Or.inl ⟨hzstat, Or.inr rfl⟩))
    · rw [if_neg hzid] at hy1z
      rw [hy1z] at hm1 hid1
      exact ⟨z, hz, hid1, microOK_statusEdge hm1⟩

theorem step_status {s s' : AppState} (hs : AppInv s) (hstep : Step s s') :
    ∀ j ∈ s.jobs, ∀ j' ∈ s'.jobs, j.id = j'.id →
      statusEdgeOK j.status j'.status := by
  intro j hj j' hj' hid
  cases hstep with
  | add files s =>
    rcases addFiles_jobs_back hs j' hj' with ⟨y, hy, hyid, hedge⟩ | hnew
    · have hyj : y = j := eq_of_mem_id hs.idsNodup hy hj (hyid.trans hid.symm)
      rw [← hyj]
      exact hedge
    · have := hs.idsLt j hj
      omega
  | remove id s =>
    have hj'mem : j' ∈ s.jobs := removeJob_jobs_back j' hj'
    have : j' = j := eq_of_mem_id hs.idsNodup hj'mem hj hid.symm
    rw [← this]
    exact Or.inl rfl
  | retry id s =>
    rcases retryJob_jobs_back hs j' hj' with ⟨y, hy, hyid, hedge⟩
    have hyj : y = j := eq_of_mem_id hs.idsNodup hy hj (hyid.trans hid.symm)
    rw [← hyj]
    exact hedge
  | settle id out s h =>
    rcases runJobSettle_jobs_back hs h j' hj' with ⟨y, hy, hyid, hedge⟩
    have hyj : y = j := eq_of_mem_id hs.idsNodup hy hj (hyid.trans hid.symm)
    rw [← hyj]
    exact hedge

/-! ### Archive entries -/

theorem zipFile_replace_names (zip : List (String × Blob)) (name : String)
    (b : Blob) :
    (zip.map (fun e => if e.1 = name then (name, b) else e)).map Prod.fst =
      zip.map Prod.fst := by
  rw [List.map_map]
  refine List.map_congr_left (fun e he => ?_)
  show (if e.1 = name then (name, b) else e).1 = e.1
  by_cases h : e.1 = name
  · rw [if_pos h, h]
  · rw [if_neg h]

theorem zipFile_names_mem (zip : List (String × Blob)) (name : String)
    (b : Blob) (n : String) :
    n ∈ (zipFile zip name b).map Prod.fst ↔
      (n ∈ zip.map Prod.fst ∨ n = name) := by
  unfold zipFile
  by_cases hany : zip.any (fun e => decide (e.1 = name))
  · rw [if_pos hany, zipFile_replace_names]
    rcases List.any_eq_true.mp hany with ⟨e, he, hename⟩
    have hename' : e.1 = name := by simpa using hename
    constructor
    · exact Or.inl
    · rintro (h | rfl)
      · exact h
      · rw [← hename']
        exact List.mem_map_of_mem Prod.fst he
  · rw [if_neg hany, List.map_append]
    simp

theorem zipFile_names_nodup (zip : List (String × Blob)) (name : String)
    (b : Blob) (h : (zip.map Prod.fst).Nodup) :
    ((zipFile zip name b).map Prod.fst).Nodup := by
  unfold zipFile
  by_cases hany : zip.any (fun e => decide (e.1 = name))
  · rw [if_pos hany, zipFile_replace_names]
    exact h
  · rw [if_neg hany, List.map_append]
    refine List.Nodup.append h (by simp) ?_
    intro a ha hb
    have hb' : a = name := by simpa using hb
    rcases List.mem_map.mp ha with ⟨e, he, hea⟩
    exact hany (List.any_eq_true.mpr ⟨e, he, by simp [hea, hb']⟩)

theorem exportLoop_cons_blob {fetch : String → Option Blob}
    {j : RemovalJob} {rest : List RemovalJob} {s : AppState}
    {zip : List (String × Blob)} {b : Blob} (hb : j.resultBlob = some b) :
    exportLoop fetch (j :: rest) s zip =
      exportLoop fetch rest s (zipFile zip (entryName j) b) := by
  rw [exportLoop, hb]

theorem exportLoop_all_blobs (fetch : String → Option Blob) :
    ∀ (l : List RemovalJob) (s : AppState) (zip : List (String × Blob)),
      (∀ j ∈ l, j.resultBlob.isSome = true) →
      ∃ entries, exportLoop fetch l s zip = (s, some entries) ∧
        ((zip.map Prod.fst).Nodup → (entries.map Prod.fst).Nodup) ∧
        (∀ n, n ∈ entries.map Prod.fst ↔
          (n ∈ zip.map Prod.fst ∨ ∃ j ∈ l, entryName j = n)) := by
  intro l
  induction l with
  | nil =>
    intro s zip hb
    exact ⟨zip, rfl, fun h => h, by simp⟩
  | cons j rest ih =>
    intro s zip hb
    obtain ⟨b, hbj⟩ := Option.isSome_iff_exists.mp (hb j (by simp))
    rcases ih s (zipFile zip (entryName j) b)
      (fun k hk => hb k (List.mem_cons_of_mem j hk)) with
      ⟨entries, heq, hnd, hmem⟩
    refine ⟨entries, ?_, ?_, ?_⟩
    · rw [exportLoop_cons_blob hbj]
      exact heq
    · intro h
      exact hnd (zipFile_names_nodup _ _ _ h)
    · intro n
      rw [hmem n, zipFile_names_mem]
      constructor
      · rintro ((h | rfl) | ⟨k, hk, hkn⟩)
        · exact Or.inl h
        · exact Or.inr ⟨j, by simp, rfl⟩
        · exact Or.inr ⟨k, List.mem_cons_of_mem j hk, hkn⟩
      · rintro (h | ⟨k, hk, hkn⟩)
        · exact Or.inl (Or.inl h)
        · rcases List.mem_cons.mp hk with rfl | hk'
          · exact Or.inl (Or.inr hkn.symm)
          · exact Or.inr ⟨k, hk', hkn⟩

theorem included_ready {s : AppState} {j : RemovalJob}
    (hj : j ∈ includedReadyJobs s) :
    j ∈ s.jobs ∧ j.status = JobStatus.ready := by
  have h := List.mem_filter.mp hj
  refine ⟨h.1, ?_⟩
  have h2 := h.2
  simp only [Bool.and_eq_true] at h2
  simpa using h2.1

theorem readyJobCount_ne_zero {s : AppState}
    (h : ¬ includedReadyJobs s = []) : ¬ readyJobCount s = 0 := by
  obtain ⟨j, hj⟩ := List.exists_mem_of_ne_nil _ h
  obtain ⟨hjmem, hjready⟩ := included_ready hj
  intro h0
  unfold readyJobCount at h0
  rw [List.length_eq_zero] at h0
  have : j ∈ s.jobs.filter (fun k => decide (k.status = JobStatus.ready)) :=
    List.mem_filter.mpr ⟨hjmem, by simp [hjready]⟩
  rw [h0] at this
  cases this

/-! ### Concrete fixtures -/

def fileA : JsFile := { name := "a.png", size := 1000, type := "image/png" }

def fileB : JsFile := { name := "b.png", size := 2000, type := "image/png" }

def fileC : JsFile := { name := "c.png", size := 3000, type := "image/png" }

def badFile : JsFile := { name := "x.txt", size := 100, type := "text/plain" }

def bigFile : JsFile :=
  { name := "big.png", size := 13000000, type := "image/png" }

/-- Three valid images added to the empty app: the scheduler admits the
first two and leaves the third pending. -/
def demo3 : AppState := (addFiles [fileA, fileB, fileC] initState).1

theorem demo3_reachable : Reachable demo3 :=
  Reachable.step Reachable.init (Step.add [fileA, fileB, fileC] initState)

/-- `demo3` after the first job's removal resolves successfully. -/
def demo3Settled : AppState := runJobSettle demo3 0 (RemovalOutcome.success 5)

theorem demo3Settled_reachable : Reachable demo3Settled :=
  Reachable.step demo3_reachable
    (Step.settle 0 (RemovalOutcome.success 5) demo3 (by decide))

/-- `demo3` after the first job's removal rejects. -/
def demoFail : AppState :=
  runJobSettle demo3 0 (RemovalOutcome.failure "boom")

theorem demoFail_reachable : Reachable demoFail :=
  Reachable.step demo3_reachable
    (Step.settle 0 (RemovalOutcome.failure "boom") demo3 (by decide))

def readyJobA : RemovalJob :=
  { id := 0
    file := { name := "a.png", size := 10, type := "image/png" }
    status := JobStatus.ready
    previewUrl := "blob:p0"
    resultUrl := some "blob:r0"
    resultBlob := some 1 }

def readyJobA2 : RemovalJob :=
  { id := 1
    file := { name := "a.png", size := 20, type := "image/png" }
    status := JobStatus.ready
    previewUrl := "blob:p1"
    resultUrl := some "blob:r1"
    resultBlob := some 2 }

/-- Two ready jobs whose derived archive entry names collide. -/
def collideState : AppState :=
  { jobs := [readyJobA, readyJobA2]
    activeWorkers := 0
    inflight := []
    nextId := 2
    nextUrl := 10 }

/-- A single ready job, for the export scenario. -/
def singleReadyState : AppState :=
  { jobs := [readyJobA]
    activeWorkers := 0
    inflight := []
    nextId := 1
    nextUrl := 10 }

/-! ### The claims -/

/-- C1: for every sequence of add, remove and retry operations with
completions interleaved at the suspension points — i.e. in every state
reachable through `Step` — the number of jobs whose status is
`processing` never exceeds `MAX_PARALLEL_JOBS` (2). -/
theorem C1_processing_bounded {s : AppState} (h : Reachable s) :
    processingCount s.jobs ≤ MAX_PARALLEL_JOBS := by
  have hs := inv_reachable h
  rw [← hs.activeEq]
  exact hs.activeLe

theorem C1_witness :
    processingCount demo3.jobs ≤ MAX_PARALLEL_JOBS ∧
      processingCount demo3.jobs = 2 :=
  ⟨C1_processing_bounded demo3_reachable, by decide⟩

/-- C2: at most one Worker operates on a job at a time: in every reachable
state the outstanding worker ids are pairwise distinct, and the scheduler
never selects a job that already has an outstanding worker (it selects
only `pending` jobs, while every in-flight id belongs to a `processing`
job), so a job handed to a Worker is not selected again until it
settles. -/
theorem C2_one_worker_per_job {s : AppState} (h : Reachable s) :
    s.inflight.Nodup ∧
      ∀ j : RemovalJob, findPending s.jobs = some j →
        j.id ∉ s.inflight := by
  have hs := inv_reachable h
  refine ⟨hs.inflightNodup, fun j hj hmem => ?_⟩
  obtain ⟨hjmem, hjpend⟩ := findPending_mem hj
  rcases hs.inflightProc j.id hmem with ⟨k, hk, hki, hkp⟩
  have hkj : k = j := eq_of_mem_id hs.idsNodup hk hjmem hki
  rw [hkj, hjpend] at hkp
  cases hkp

theorem C2_witness :
    demo3.inflight.Nodup ∧
      ∀ j : RemovalJob, findPending demo3.jobs = some j →
        j.id ∉ demo3.inflight :=
  C2_one_worker_per_job demo3_reachable

/-- C3: an input whose size strictly exceeds `MAX_FILE_SIZE_BYTES` or
whose mime type does not start with "image/" creates no job: if no job
already carried that file, then after `addFiles` no job in the store has
it as its source. -/
theorem C3_invalid_never_stored {files : List JsFile} {s : AppState}
    {f : JsFile}
    (hbad : ¬ strStartsWith f.type "image/" = true ∨
      f.size > MAX_FILE_SIZE_BYTES)
    (hold : ∀ j ∈ s.jobs, ¬ j.file = f) :
    ∀ j ∈ (addFiles files s).1.jobs, ¬ j.file = f := by
  intro j hj hjf
  rw [addFiles_eq] at hj
  by_cases hadd : (addFilesLoop files s 0 0).2.1 > 0
  · rw [if_pos hadd] at hj
    rcases startNextJobs_files_back j hj with ⟨y, hy, hyf⟩
    rcases addFilesLoop_jobs_back files s 0 0 y hy with h | ⟨_, _, hc, hd, _⟩
    · exact hold y h (by rw [hyf, hjf])
    · rw [hyf, hjf] at hc hd
      rcases hbad with hb | hb
      · exact hb hc
      · exact hd hb
  · rw [if_neg hadd] at hj
    rcases addFilesLoop_jobs_back files s 0 0 j hj with h | ⟨_, _, hc, hd, _⟩
    · exact hold j h hjf
    · rw [hjf] at hc hd
      rcases hbad with hb | hb
      · exact hb hc
      · exact hd hb

theorem C3_witness :
    (∀ j ∈ (addFiles [badFile, fileA] initState).1.jobs,
      ¬ j.file = badFile) ∧
    (addFiles [badFile, fileA] initState).1.jobs.map
      (fun j => j.file.name) = ["a.png"] :=
  ⟨C3_invalid_never_stored (Or.inl (by decide)) (by decide), by decide⟩

/-- C4: the remove handler takes its not-found exit (store untouched) when
no job has the id, its invalid-state exit (store and job untouched) when
the job is `processing`, and otherwise deletes the job from the store and
releases its resources: it revokes the preview URL, revokes the result URL
when it is a blob: URL, and drops the result bytes. -/
theorem C4_remove_contract (s : AppState) (id : Nat) :
    (s.jobs.find? (fun k => decide (k.id = id)) = none →
      removeJob s id = (s, RemoveResult.notFound, [])) ∧
    (∀ j, s.jobs.find? (fun k => decide (k.id = id)) = some j →
      j.status = JobStatus.processing →
      removeJob s id = (s, RemoveResult.invalidState, [])) ∧
    (∀ j, s.jobs.find? (fun k => decide (k.id = id)) = some j →
      ¬ j.status = JobStatus.processing →
      (removeJob s id).2.1 = RemoveResult.removed ∧
      (removeJob s id).1.jobs =
        s.jobs.filter (fun k => decide (¬ k.id = id)) ∧
      (∀ k ∈ (removeJob s id).1.jobs, ¬ k.id = id) ∧
      (removeJob s id).2.2 = (cleanupJobUrls j).2 ∧
      j.previewUrl ∈ (removeJob s id).2.2 ∧
      (∀ u, j.resultUrl = some u → strStartsWith u "blob:" = true →
        u ∈ (removeJob s id).2.2) ∧
      (cleanupJobUrls j).1.resultBlob = none) := by
  refine ⟨fun hj => removeJob_notFound hj, fun j hj hp => ?_,
    fun j hj hp => ?_⟩
  · rw [removeJob_found hj, if_pos hp]
  · rw [removeJob_found hj, if_neg hp]
    refine ⟨rfl, rfl, ?_, rfl, ?_, ?_, rfl⟩
    · intro k hk
      have hk2 := (List.mem_filter.mp hk).2
      simpa using hk2
    · show j.previewUrl ∈ (cleanupJobUrls j).2
      simp [cleanupJobUrls]
    · intro u hu hblob
      show u ∈ (cleanupJobUrls j).2
      simp [cleanupJobUrls, hu, hblob]

theorem C4_witness :
    removeJob collideState 5 = (collideState, RemoveResult.notFound, []) ∧
    (removeJob collideState 0).2.1 = RemoveResult.removed ∧
    (∀ k ∈ (removeJob collideState 0).1.jobs, ¬ k.id = 0) ∧
    (removeJob collideState 0).2.2 = ["blob:p0", "blob:r0"] := by
  obtain ⟨h1, -, -⟩ := C4_remove_contract collideState 5
  obtain ⟨-, -, h3⟩ := C4_remove_contract collideState 0
  have h := h3 readyJobA (by decide) (by decide)
  exact ⟨h1 (by decide), h.1, h.2.2.1, by decide⟩

/-- C8: exporting when no job is `ready` (or when no ready job can be
included) takes the early nothing-to-export exit: no archive is built, no
download link is produced, the state is unchanged, and that outcome is a
different constructor from both the failure outcome and any download
outcome. -/
theorem C8_export_nothing (fetch : String → Option Blob) (zipOk : Bool)
    (s : AppState)
    (h : readyJobCount s = 0 ∨ includedReadyJobs s = []) :
    downloadAllReadyJobs fetch zipOk s =
      (s, ExportOutcome.nothingToExport) ∧
    ExportOutcome.nothingToExport ≠ ExportOutcome.failed ∧
    (∀ entries, ExportOutcome.nothingToExport ≠
      ExportOutcome.downloaded entries) := by
  refine ⟨?_, fun hc => ExportOutcome.noConfusion hc,
    fun entries hc => ExportOutcome.noConfusion hc⟩
  unfold downloadAllReadyJobs
  rcases h with h | h
  · rw [if_pos h]
  · by_cases h0 : readyJobCount s = 0
    · rw [if_pos h0]
    · rw [if_neg h0, h]
      rfl

theorem C8_witness :
    downloadAllReadyJobs (fun _ => none) true initState =
      (initState, ExportOutcome.nothingToExport) ∧
    ExportOutcome.nothingToExport ≠ ExportOutcome.failed ∧
    (∀ entries, ExportOutcome.nothingToExport ≠
      ExportOutcome.downloaded entries) :=
  C8_export_nothing (fun _ => none) true initState (Or.inl (by decide))

/-- C10: in every reachable state, every job holds result bytes and a
result URL exactly when its status is `ready`, and an error message
exactly when its status is `error`; this is preserved by every operation
because it is part of the step invariant. -/
theorem C10_fields_iff_status {s : AppState} (h : Reachable s) :
    ∀ j ∈ s.jobs,
      (j.resultBlob.isSome ↔ j.status = JobStatus.ready) ∧
      (j.resultUrl.isSome ↔ j.status = JobStatus.ready) ∧
      (j.error.isSome ↔ j.status = JobStatus.error) :=
  (inv_reachable h).fieldsOk

theorem C10_witness :
    (∀ j ∈ demo3Settled.jobs,
      (j.resultBlob.isSome ↔ j.status = JobStatus.ready) ∧
      (j.resultUrl.isSome ↔ j.status = JobStatus.ready) ∧
      (j.error.isSome ↔ j.status = JobStatus.error)) ∧
    demo3Settled.jobs.map (fun j => j.resultBlob.isSome) =
      [true, false, false] :=
  ⟨C10_fields_iff_status demo3Settled_reachable, by decide⟩

/-- C5: retry succeeds only on a job whose status is `error` (otherwise,
and on a missing id, the handler is a no-op); on success it first sets the
job to `pending` with a cleared error — the state the UI renders before
the scheduler runs — and then invokes the scheduler.  The admission step
only ever picks `pending` jobs, and every observable step moves each job
only along the lifecycle edges pending→processing, processing→ready,
processing→error, error→pending (with error→processing arising only as
retry-then-immediate-admission through the rendered `pending` state), so
the observed sequence after a retry is error → pending → processing →
(ready | error) and never skips `pending`. -/
theorem C5_retry_contract {s : AppState} (h : Reachable s) (id : Nat) :
    (s.jobs.find? (fun k => decide (k.id = id)) = none →
      retryJob s id = s) ∧
    (∀ j, s.jobs.find? (fun k => decide (k.id = id)) = some j →
      ¬ j.status = JobStatus.error → retryJob s id = s) ∧
    (∀ j, s.jobs.find? (fun k => decide (k.id = id)) = some j →
      j.status = JobStatus.error →
      retryJob s id = startNextJobs (retrySet s id) ∧
      ∀ j' ∈ (retrySet s id).jobs, j'.id = id →
        j'.status = JobStatus.pending ∧ j'.error = none) ∧
    (∀ jobs j0, findPending jobs = some j0 →
      j0.status = JobStatus.pending) ∧
    (∀ s', Step s s' → ∀ j ∈ s.jobs, ∀ j' ∈ s'.jobs, j.id = j'.id →
      statusEdgeOK j.status j'.status) := by
  have hs := inv_reachable h
  refine ⟨fun hj => retryJob_notFound hj, fun j hj he => ?_,
    fun j hj he => ?_, fun jobs j0 h0 => (findPending_mem h0).2,
    fun s' hstep => step_status hs hstep⟩
  · rw [retryJob_found hj, if_neg he]
  · refine ⟨by rw [retryJob_found hj, if_pos he], ?_⟩
    intro j' hj' hid
    rcases mem_setJob hj' with ⟨z, hz, hj'z⟩
    by_cases hzid : z.id = id
    · rw [if_pos hzid] at hj'z
      rw [hj'z]
      exact ⟨rfl, rfl⟩
    · rw [if_neg hzid] at hj'z
      rw [hj'z] at hid
      exact absurd hid hzid

theorem C5_witness :
    ((demoFail.jobs.find? (fun k => decide (k.id = 0)) = none →
      retryJob demoFail 0 = demoFail) ∧
    (∀ j, demoFail.jobs.find? (fun k => decide (k.id = 0)) = some j →
      ¬ j.status = JobStatus.error → retryJob demoFail 0 = demoFail) ∧
    (∀ j, demoFail.jobs.find? (fun k => decide (k.id = 0)) = some j →
      j.status = JobStatus.error →
      retryJob demoFail 0 = startNextJobs (retrySet demoFail 0) ∧
      ∀ j' ∈ (retrySet demoFail 0).jobs, j'.id = 0 →
        j'.status = JobStatus.pending ∧ j'.error = none) ∧
    (∀ jobs j0, findPending jobs = some j0 →
      j0.status = JobStatus.pending) ∧
    (∀ s', Step demoFail s' →
      ∀ j ∈ demoFail.jobs, ∀ j' ∈ s'.jobs, j.id = j'.id →
        statusEdgeOK j.status j'.status)) ∧
    (demoFail.jobs.map RemovalJob.status =
      [JobStatus.error, JobStatus.processing, JobStatus.processing]) :=
  ⟨C5_retry_contract demoFail_reachable 0, by decide⟩

/-- C6: the scheduler admits pending jobs oldest-first in store order (the
selected job is always the first pending one), each admission increments
the active count and consumes a pending job (so active-count plus
pending-count is conserved), on return either the active count equals the
limit or no pending job remains, and an immediately repeated invocation
changes nothing.  Concretely, adding 3 valid images to the empty app puts
exactly 2 in `processing` and leaves 1 `pending`, and when one settles the
third transitions to `processing`. -/
theorem C6_scheduler_contract {s : AppState} (h : Reachable s) :
    ((startNextJobs s).activeWorkers = MAX_PARALLEL_JOBS ∨
      findPending (startNextJobs s).jobs = none) ∧
    startNextJobs (startNextJobs s) = startNextJobs s ∧
    (startNextJobs s).activeWorkers +
        pendingCount (startNextJobs s).jobs =
      s.activeWorkers + pendingCount s.jobs ∧
    (∀ j, findPending s.jobs = some j →
      j.status = JobStatus.pending ∧
      ∃ pre post, s.jobs = pre ++ j :: post ∧
        ∀ k ∈ pre, ¬ k.status = JobStatus.pending) ∧
    demo3.jobs.map RemovalJob.status =
      [JobStatus.processing, JobStatus.processing, JobStatus.pending] ∧
    demo3Settled.jobs.map RemovalJob.status =
      [JobStatus.ready, JobStatus.processing, JobStatus.processing] := by
  have hs := inv_reachable h
  refine ⟨startNextJobs_post hs, startNextJobs_idem hs,
    startNextJobs_sum hs, ?_, by decide, by decide⟩
  intro j hj
  exact ⟨(findPending_mem hj).2, findPending_split hj⟩

theorem C6_witness :
    (((startNextJobs initState).activeWorkers = MAX_PARALLEL_JOBS ∨
      findPending (startNextJobs initState).jobs = none) ∧
    startNextJobs (startNextJobs initState) = startNextJobs initState ∧
    (startNextJobs initState).activeWorkers +
        pendingCount (startNextJobs initState).jobs =
      initState.activeWorkers + pendingCount initState.jobs ∧
    (∀ j, findPending initState.jobs = some j →
      j.status = JobStatus.pending ∧
      ∃ pre post, initState.jobs = pre ++ j :: post ∧
        ∀ k ∈ pre, ¬ k.status = JobStatus.pending) ∧
    demo3.jobs.map RemovalJob.status =
      [JobStatus.processing, JobStatus.processing, JobStatus.pending] ∧
    demo3Settled.jobs.map RemovalJob.status =
      [JobStatus.ready, JobStatus.processing, JobStatus.processing]) ∧
    demo3.activeWorkers = 2 :=
  ⟨C6_scheduler_contract Reachable.init, by decide⟩

/-- C7 counterexample: a single non-image file is rejected at admission
(it never becomes a job) but the reported `rejected` counter stays 0 — the
code counts only oversized image files, so the reported count differs from
the spec's count of oversized-or-non-image inputs. -/
theorem C7_counterexample :
    (addFiles [badFile] initState).2.2 = 0 ∧
    specRejectedCount [badFile] = 1 ∧
    ¬ (addFiles [badFile] initState).2.2 = specRejectedCount [badFile] :=
  ⟨by decide, by decide, by decide⟩

/-- C7 amended: the reported rejected-file count equals the number of
image-typed inputs whose size exceeds the limit (non-image inputs are
silently skipped without being counted), and rejected inputs do not block
accepted ones: every image-typed input within the size limit still becomes
a job in the store. -/
theorem C7_amended_rejected_count (files : List JsFile) (s : AppState) :
    (addFiles files s).2.2 =
      files.countP (fun f => strStartsWith f.type "image/" &&
        decide (f.size > MAX_FILE_SIZE_BYTES)) ∧
    ∀ f ∈ files, strStartsWith f.type "image/" = true →
      ¬ f.size > MAX_FILE_SIZE_BYTES →
      ∃ j ∈ (addFiles files s).1.jobs, j.file = f := by
  constructor
  · rw [addFiles_eq]
    show (addFilesLoop files s 0 0).2.2 = _
    rw [addFilesLoop_rejected]
    omega
  · intro f hf himg hsize
    rcases addFilesLoop_accepts files s 0 0 f hf himg hsize with
      ⟨j, hj, hjf⟩
    rw [addFiles_eq]
    by_cases hadd : (addFilesLoop files s 0 0).2.1 > 0
    · rw [if_pos hadd]
      rcases startNextJobs_files_fwd j hj with ⟨x, hx, hxf⟩
      exact ⟨x, hx, by rw [hxf, hjf]⟩
    · rw [if_neg hadd]
      exact ⟨j, hj, hjf⟩

theorem C7_witness :
    ((addFiles [badFile, bigFile, fileA] initState).2.2 =
      [badFile, bigFile, fileA].countP
        (fun f => strStartsWith f.type "image/" &&
          decide (f.size > MAX_FILE_SIZE_BYTES)) ∧
    ∀ f ∈ [badFile, bigFile, fileA],
      strStartsWith f.type "image/" = true →
      ¬ f.size > MAX_FILE_SIZE_BYTES →
      ∃ j ∈ (addFiles [badFile, bigFile, fileA] initState).1.jobs,
        j.file = f) ∧
    (addFiles [badFile, bigFile, fileA] initState).2.2 = 1 :=
  ⟨C7_amended_rejected_count [badFile, bigFile, fileA] initState, by decide⟩

theorem downloadAll_run {fetch : String → Option Blob} {zipOk : Bool}
    {s : AppState} (h0 : ¬ readyJobCount s = 0)
    (h1 : ¬ includedReadyJobs s = []) :
    downloadAllReadyJobs fetch zipOk s =
      match exportLoop fetch (includedReadyJobs s) s [] with
      | (s1, none) => (s1, ExportOutcome.failed)
      | (s1, some entries) =>
        if zipOk then (s1, ExportOutcome.downloaded entries)
        else (s1, ExportOutcome.failed) := by
  unfold downloadAllReadyJobs
  rw [if_neg h0]
  cases hl : includedReadyJobs s with
  | nil => exact absurd hl h1
  | cons a l => rfl

/-- C9 counterexample: two ready jobs both derived from the name "a.png"
are included in the export, yet the produced archive holds a single entry
(the later job's bytes replaced the earlier entry) — name collisions are
not resolved by suffixing, and an entry is lost. -/
theorem C9_counterexample :
    (includedReadyJobs collideState).length = 2 ∧
    downloadAllReadyJobs (fun _ => none) true collideState =
      (collideState, ExportOutcome.downloaded [("a-bg-removed.png", 2)]) :=
  ⟨by decide, by decide⟩

/-- C9 amended: the export adds, for every included ready job, an entry
under the name derived from the sanitized original filename plus the
output suffix; entry names in the archive are unique, and every entry name
comes from some included job — but when two jobs derive the same name the
later `zip.file` call replaces the earlier entry instead of suffixing it,
so the archive holds one entry per distinct derived name rather than one
per job. -/
theorem C9_amended_unique_names {fetch : String → Option Blob}
    {s : AppState} (hne : ¬ includedReadyJobs s = [])
    (hblobs : ∀ j ∈ includedReadyJobs s, j.resultBlob.isSome = true) :
    ∃ entries,
      downloadAllReadyJobs fetch true s =
        (s, ExportOutcome.downloaded entries) ∧
      (entries.map Prod.fst).Nodup ∧
      (∀ j ∈ includedReadyJobs s, entryName j ∈ entries.map Prod.fst) ∧
      (∀ n ∈ entries.map Prod.fst,
        ∃ j ∈ includedReadyJobs s, entryName j = n) := by
  rcases exportLoop_all_blobs fetch (includedReadyJobs s) s [] hblobs with
    ⟨entries, heq, hnd, hmem⟩
  refine ⟨entries, ?_, hnd (by simp), ?_, ?_⟩
  · rw [downloadAll_run (readyJobCount_ne_zero hne) hne, heq]
    rfl
  · intro j hj
    exact (hmem (entryName j)).mpr (Or.inr ⟨j, hj, rfl⟩)
  · intro n hn
    rcases (hmem n).mp hn with h | h
    · cases h
    · exact h

theorem C9_witness :
    ∃ entries,
      downloadAllReadyJobs (fun _ => none) true singleReadyState =
        (singleReadyState, ExportOutcome.downloaded entries) ∧
      (entries.map Prod.fst).Nodup ∧
      (∀ j ∈ includedReadyJobs singleReadyState,
        entryName j ∈ entries.map Prod.fst) ∧
      (∀ n ∈ entries.map Prod.fst,
        ∃ j ∈ includedReadyJobs singleReadyState, entryName j = n) :=
  C9_amended_unique_names (by decide) (by decide)
